import Mathlib

/-!
Shallow embedding of the ear-training core of this repository
(`backend.py`, with `EarTraining.py` as a near-identical variant).

Modelling conventions:
* Python dictionaries become association lists, and a dictionary lookup that
  can miss returns `Except PyErr`, with `PyErr.keyError` playing the role of
  Python's `KeyError`.
* `random.choice`, `random.randint` and the test `random.random() < 0.75`
  consume successive values of an injected stream `g : Nat → Nat` together
  with a cursor `k`; `random.choice` on an empty list raises `IndexError`
  exactly as in Python, and `random.randint a b` with `a > b` raises
  `ValueError`.  Quantifying over all streams `g` covers every outcome the
  Python RNG can produce (uniform choice from a list of length `n` can hit
  each index; the 0.75 test can come out either way).
* The `while len(midi_sequence) < number_of_notes` loop appends exactly one
  element per iteration (or raises), so it runs exactly
  `max (number_of_notes - 1) 0` times; the embedding runs the body that many
  times as fuel-indexed recursion, which is extensionally the same loop.
-/

/-- Python exceptions that the embedded code can raise. -/
inductive PyErr where
  | keyError
  | indexError
  | valueError
  deriving DecidableEq, Repr

/-- `backend.py` lines 8-12: solfege syllable → MIDI note in the C major octave. -/
def solfege_to_midi : List (String × Int) :=
  [("do", 60), ("ra", 61), ("re", 62), ("me", 63), ("mi", 64),
   ("fa", 65), ("fi", 66), ("sol", 67), ("le", 68), ("la", 69),
   ("te", 70), ("ti", 71)]

/-- `backend.py` lines 15-19: key name → signed semitone adjustment.
Note the source has the entries `"D#" ↦ 2` and `"A3" ↦ -2` exactly as written. -/
def key_to_adjustment : List (String × Int) :=
  [("C", 0), ("C#", 1), ("Db", 1), ("D", 2), ("D#", 2), ("Eb", 3),
   ("E", 4), ("F", 5), ("F#", 6), ("Gb", -6), ("G", -5), ("G#", -4),
   ("Ab", -4), ("A", -3), ("A3", -2), ("Bb", -2), ("B", -1)]

/-- Python dictionary lookup: the value at the key, or `KeyError`. -/
def dictGet (tbl : List (String × Int)) (key : String) : Except PyErr Int :=
  match tbl.find? (fun p => p.1 == key) with
  | some p => Except.ok p.2
  | none => Except.error PyErr.keyError

/-- Helper for `splitSyllables`: walk the characters, accumulating the current
word in reverse; a space ends the word, runs of spaces produce nothing. -/
def splitAux : List Char → List Char → List String
  | [], acc => if acc.isEmpty then [] else [String.mk acc.reverse]
  | c :: cs, acc =>
      if c = ' ' then
        if acc.isEmpty then splitAux cs []
        else String.mk acc.reverse :: splitAux cs []
      else splitAux cs (c :: acc)

/-- Python `str.split()` restricted to the space separator: split on runs of
spaces, dropping empty fragments. -/
def splitSyllables (s : String) : List String :=
  splitAux s.data []

/-- `random.choice l`: uniform element of `l`, `IndexError` on the empty list.
The stream value at the cursor selects the index. -/
def randChoice {α : Type} (g : Nat → Nat) (k : Nat) :
    List α → Except PyErr (α × Nat)
  | [] => Except.error PyErr.indexError
  | a :: l =>
      Except.ok ((a :: l).get ⟨g k % (a :: l).length, Nat.mod_lt _ (Nat.succ_pos _)⟩, k + 1)

/-- `random.randint a b`: uniform integer in `[a, b]`; `ValueError` when `a > b`. -/
def randInt (g : Nat → Nat) (k : Nat) (a b : Int) : Except PyErr (Int × Nat) :=
  if a ≤ b then Except.ok (a + (g k : Int) % (b - a + 1), k + 1)
  else Except.error PyErr.valueError

/-- The Boolean outcome of `random.random() < 0.75`: one stream value is
consumed; residues 0, 1, 2 mod 4 stand for the probability-3/4 event. -/
def randFloatLt75 (g : Nat → Nat) (k : Nat) : Bool × Nat :=
  (decide (g k % 4 < 3), k + 1)

/-- `backend.py` lines 147-149: the body of
`while len(midi_sequence) < number_of_notes`, run `fuel` times.  Each pass
draws `random.choice` from the allowed notes minus the last note appended. -/
def extendSeq (selected : List Int) (g : Nat → Nat) :
    Nat → List Int → Nat → Except PyErr (List Int × Nat)
  | 0, seq, k => Except.ok (seq, k)
  | fuel + 1, seq, k =>
      match seq.getLast? with
      | none => Except.error PyErr.indexError
      | some last =>
          match randChoice g k (selected.filter (fun note => note != last)) with
          | Except.error e => Except.error e
          | Except.ok (next_note, k2) => extendSeq selected g fuel (seq ++ [next_note]) k2

/-- Python `range(1, octave_range + 1)` as a list of integers. -/
def octaveBands (octave_range : Int) : List Int :=
  (List.range octave_range.toNat).map (fun (i : Nat) => 1 + (i : Int))

/-- `backend.py` lines 155-160: the octave-walk loop, run `fuel` times.  When
the previous band is 1, `random.random() < 0.75` keeps it at 1, otherwise
`random.choice` draws from the other bands (an empty list when
`octave_range = 1`, raising `IndexError` as the source does). -/
def extendOctaves (octave_range : Int) (g : Nat → Nat) :
    Nat → List Int → Nat → Except PyErr (List Int × Nat)
  | 0, oct, k => Except.ok (oct, k)
  | fuel + 1, oct, k =>
      match oct.getLast? with
      | none => Except.error PyErr.indexError
      | some last =>
          if last = 1 then
            match randFloatLt75 g k with
            | (stay, k1) =>
                if stay then extendOctaves octave_range g fuel (oct ++ [1]) k1
                else
                  match randChoice g k1
                      ((octaveBands octave_range).filter (fun o => o != last)) with
                  | Except.error e => Except.error e
                  | Except.ok (next_octave, k2) =>
                      extendOctaves octave_range g fuel (oct ++ [next_octave]) k2
          else
            match randChoice g k
                ((octaveBands octave_range).filter (fun o => o != last)) with
            | Except.error e => Except.error e
            | Except.ok (next_octave, k2) =>
                extendOctaves octave_range g fuel (oct ++ [next_octave]) k2

/-- `backend.py` lines 129-167, `EarTrainingGame.generate_test_sequence`, up to
(but not including) the final `"_".join`: returns the adjusted (display) note
list and `pre_octave_key_list`, the ground-truth list copied before octave and
key adjustment. -/
def generate_test_sequence_core (number_of_notes : Int) (solfege_syllables : String)
    (octave_range : Int) (key : String) (g : Nat → Nat) :
    Except PyErr (List Int × List Int) :=
  match (splitSyllables solfege_syllables).mapM (fun s => dictGet solfege_to_midi s) with
  | Except.error e => Except.error e
  | Except.ok selected_midi_notes =>
      match randChoice g 0 selected_midi_notes with
      | Except.error e => Except.error e
      | Except.ok (first, k1) =>
          match extendSeq selected_midi_notes g (number_of_notes - 1).toNat [first] k1 with
          | Except.error e => Except.error e
          | Except.ok (midi_sequence, k2) =>
              match randInt g k2 1 octave_range with
              | Except.error e => Except.error e
              | Except.ok (oct1, k3) =>
                  match extendOctaves octave_range g (number_of_notes - 1).toNat [oct1] k3 with
                  | Except.error e => Except.error e
                  | Except.ok (octave_adjustments, _) =>
                      match dictGet key_to_adjustment key with
                      | Except.error e => Except.error e
                      | Except.ok key_adjustment =>
                          let notes_plus_octave :=
                            (midi_sequence.zip octave_adjustments).map
                              (fun p => p.1 + (p.2 - 1) * 12)
                          let adjusted_notes :=
                            notes_plus_octave.map (fun note => note + key_adjustment)
                          Except.ok (adjusted_notes, midi_sequence)

/-- Python `"_".join(map(str, l))`. -/
def joinUnderscore : List Int → String
  | [] => ""
  | [a] => toString a
  | a :: b :: rest => toString a ++ "_" ++ joinUnderscore (b :: rest)

/-- `EarTrainingGame.generate_test_sequence` as returned to the caller:
the display list rendered as an underscore-joined string, together with
`pre_octave_key_list`. -/
def generate_test_sequence (number_of_notes : Int) (solfege_syllables : String)
    (octave_range : Int) (key : String) (g : Nat → Nat) :
    Except PyErr (String × List Int) :=
  match generate_test_sequence_core number_of_notes solfege_syllables octave_range key g with
  | Except.error e => Except.error e
  | Except.ok (adjusted_notes, pre_octave_key_list) =>
      Except.ok (joinUnderscore adjusted_notes, pre_octave_key_list)

/-- A cadence as returned by `generate_reference_cadence`: the dictionary with
the `dominant` and `tonic` triads. -/
structure Cadence where
  dominant : Int × Int × Int
  tonic : Int × Int × Int
  deriving DecidableEq, Repr

/-- `backend.py` lines 169-182, `EarTrainingGame.generate_reference_cadence`. -/
def generate_reference_cadence (key : String) : Except PyErr Cadence :=
  match dictGet solfege_to_midi "do" with
  | Except.error e => Except.error e
  | Except.ok base =>
      match dictGet key_to_adjustment key with
      | Except.error e => Except.error e
      | Except.ok adj =>
          let key_note := base + adj
          Except.ok
            { dominant := (key_note - 5, key_note - 1, key_note + 2)
              tonic := (key_note, key_note + 4, key_note + 7) }

/-- Python `l[i]`: the element at a valid index, `IndexError` otherwise
(negative indices do not occur in the embedded code paths). -/
def pyIndex (l : List Int) (i : Nat) : Except PyErr Int :=
  match l.get? i with
  | some a => Except.ok a
  | none => Except.error PyErr.indexError

/-- The list comprehension of `validate_user_input`
(`backend.py` line 59) evaluated from index `k` for `fuel` steps:
`[1 if pre[i] == user[i] else 0 for i in range(len(pre))]` with Python's
left-to-right evaluation, so the first out-of-range access raises. -/
def matchFrom (pre user : List Int) : Nat → Nat → Except PyErr (List Int)
  | _, 0 => Except.ok []
  | k, fuel + 1 =>
      match pyIndex pre k with
      | Except.error e => Except.error e
      | Except.ok a =>
          match pyIndex user k with
          | Except.error e => Except.error e
          | Except.ok b =>
              match matchFrom pre user (k + 1) fuel with
              | Except.error e => Except.error e
              | Except.ok rest => Except.ok ((if a = b then (1 : Int) else 0) :: rest)

/-- `backend.py` lines 47-60, `validate_user_input`. -/
def validate_user_input (pre_octave_key_list user_input_list : List Int) :
    Except PyErr (Int × List Int) :=
  let overall_match : Int := if pre_octave_key_list = user_input_list then 1 else 0
  match matchFrom pre_octave_key_list user_input_list 0 pre_octave_key_list.length with
  | Except.error e => Except.error e
  | Except.ok detailed_match => Except.ok (overall_match, detailed_match)

/-- The mutable fields of `EarTrainingGame` (`backend.py` lines 66-73).
`elapsed_time` is carried exactly; no claim depends on float rounding. -/
structure GameState where
  user_guesses : List String
  elapsed_time : ℚ
  running : Bool
  deriving DecidableEq, Repr

/-- `notify_gui` (`backend.py` lines 103-107): the state snapshot emitted to the
observer, as structured data. -/
def notify_gui (s : GameState) : ℚ × List String :=
  (s.elapsed_time, s.user_guesses)

/-- `add_user_guess` (`backend.py` lines 109-118): append and notify. -/
def add_user_guess (s : GameState) (solfege : String) : GameState × (ℚ × List String) :=
  let s2 := { s with user_guesses := s.user_guesses ++ [solfege] }
  (s2, notify_gui s2)

/-- `remove_user_guess` (`backend.py` lines 120-127): pop the last guess when
the buffer is non-empty, then notify. -/
def remove_user_guess (s : GameState) : GameState × (ℚ × List String) :=
  let s2 :=
    if s.user_guesses.isEmpty then s
    else { s with user_guesses := s.user_guesses.dropLast }
  (s2, notify_gui s2)

/-- One pass of the `_game_clock` loop body (`backend.py` line 97). -/
def game_clock_tick (s : GameState) : GameState :=
  { s with elapsed_time := s.elapsed_time + 1 / 60 }

/-- The `except` handler of `_game_clock` (`backend.py` lines 100-101): it
prints the message and returns, leaving every field of the state untouched. -/
def game_clock_on_error (s : GameState) (e : String) : GameState × String :=
  (s, "An error occurred: " ++ e)

/-! ## Helper lemmas about the RNG primitives and loop bodies -/

theorem randChoice_of_ne_nil {α : Type} (g : Nat → Nat) (k : Nat) {L : List α}
    (h : L ≠ []) : ∃ x, randChoice g k L = Except.ok (x, k + 1) ∧ x ∈ L := by
  cases L with
  | nil => exact absurd rfl h
  | cons a l => exact ⟨_, rfl, List.get_mem _ _ _⟩

theorem randInt_ok_bounds {g : Nat → Nat} {k : Nat} {a b x : Int} {k2 : Nat}
    (h : randInt g k a b = Except.ok (x, k2)) : a ≤ b ∧ a ≤ x ∧ x ≤ b := by
  unfold randInt at h
  by_cases hab : a ≤ b
  · rw [if_pos hab] at h
    simp only [Except.ok.injEq, Prod.mk.injEq] at h
    obtain ⟨hx, -⟩ := h
    have hmod0 : (0 : Int) ≤ (g k : Int) % (b - a + 1) :=
      Int.emod_nonneg _ (by omega)
    have hmod1 : (g k : Int) % (b - a + 1) < b - a + 1 :=
      Int.emod_lt_of_pos _ (by omega)
    omega
  · rw [if_neg hab] at h
    exact absurd h (by simp)

theorem all_eq_of_dedup_lt_two {L : List Int} (h : L.dedup.length < 2) :
    ∀ x ∈ L, ∀ y ∈ L, x = y := by
  intro x hx y hy
  match hL : L.dedup with
  | [] =>
      have := (List.dedup_eq_nil L).mp hL
      subst this
      simp at hx
  | [v] =>
      have hx2 : x ∈ L.dedup := List.mem_dedup.mpr hx
      have hy2 : y ∈ L.dedup := List.mem_dedup.mpr hy
      rw [hL] at hx2 hy2
      simp only [List.mem_singleton] at hx2 hy2
      rw [hx2, hy2]
  | a :: b :: rest =>
      rw [hL] at h
      simp at h
      omega

theorem filter_ne_of_two_dedup {L : List Int} (h : 2 ≤ L.dedup.length) (v : Int) :
    L.filter (fun x => x != v) ≠ [] := by
  obtain ⟨a, b, rest, hd⟩ : ∃ a b rest, L.dedup = a :: b :: rest := by
    match hL : L.dedup with
    | [] => rw [hL] at h; simp at h
    | [a] => rw [hL] at h; simp at h
    | a :: b :: rest => exact ⟨a, b, rest, rfl⟩
  have hnd := L.nodup_dedup
  rw [hd] at hnd
  have hab : a ≠ b := by
    intro hab
    rw [hab] at hnd
    simp at hnd
  have haL : a ∈ L := List.mem_dedup.mp (hd ▸ List.mem_cons_self a (b :: rest))
  have hbL : b ∈ L :=
    List.mem_dedup.mp (hd ▸ List.mem_cons_of_mem a (List.mem_cons_self b rest))
  intro hfil
  have hall : ∀ x ∈ L, x = v := by
    intro x hx
    by_contra hne
    have hmem : x ∈ L.filter (fun x => x != v) := by
      rw [List.mem_filter]
      exact ⟨hx, by simpa using hne⟩
    rw [hfil] at hmem
    simp at hmem
  exact hab ((hall a haL).trans (hall b hbL).symm)

theorem list_getLast?_of_ne_nil {α : Type} {l : List α} (h : l ≠ []) :
    ∃ a, l.getLast? = some a := by
  cases hl : l.getLast? with
  | none => exact absurd (List.getLast?_eq_none_iff.mp hl) h
  | some a => exact ⟨a, rfl⟩

theorem extendSeq_ok (selected : List Int) (g : Nat → Nat)
    (hfil : ∀ v : Int, selected.filter (fun x => x != v) ≠ []) :
    ∀ (fuel : Nat) (seq : List Int) (k : Nat), seq ≠ [] →
      ∃ out k2, extendSeq selected g fuel seq k = Except.ok (out, k2) ∧
        out.length = seq.length + fuel ∧
        (List.Chain' (fun a b => a ≠ b) seq → List.Chain' (fun a b => a ≠ b) out) := by
  intro fuel
  induction fuel with
  | zero => intro seq k _; exact ⟨seq, k, rfl, by simp [extendSeq], fun h => h⟩
  | succ n ih =>
      intro seq k hne
      obtain ⟨last, hlast⟩ := list_getLast?_of_ne_nil hne
      obtain ⟨x, hx, hxmem⟩ := randChoice_of_ne_nil g k (hfil last)
      obtain ⟨out, k2, hout, hlen, hchain⟩ := ih (seq ++ [x]) (k + 1) (by simp)
      refine ⟨out, k2, ?_, ?_, ?_⟩
      · simp only [extendSeq, hlast, hx]
        exact hout
      · rw [hlen]
        simp
        omega
      · intro hc
        apply hchain
        rw [List.chain'_append]
        refine ⟨hc, List.chain'_singleton x, ?_⟩
        intro p hp q hq
        simp only [hlast, Option.mem_def, Option.some.injEq] at hp
        simp only [List.head?_cons, Option.mem_def, Option.some.injEq] at hq
        subst hp
        subst hq
        have hxp : x ≠ last := by
          rw [List.mem_filter] at hxmem
          simpa using hxmem.2
        exact fun hpq => hxp hpq.symm

theorem randChoice_ok_mem {α : Type} {g : Nat → Nat} {k : Nat} {L : List α}
    {x : α} {k2 : Nat} (h : randChoice g k L = Except.ok (x, k2)) : x ∈ L := by
  cases L with
  | nil => simp [randChoice] at h
  | cons a l =>
      simp only [randChoice, Except.ok.injEq, Prod.mk.injEq] at h
      rw [← h.1]
      exact List.get_mem _ _ _

theorem extendSeq_ok_length (selected : List Int) (g : Nat → Nat) :
    ∀ (fuel : Nat) (seq : List Int) (k : Nat) (out : List Int) (k2 : Nat),
      extendSeq selected g fuel seq k = Except.ok (out, k2) →
      out.length = seq.length + fuel := by
  intro fuel
  induction fuel with
  | zero =>
      intro seq k out k2 h
      simp only [extendSeq, Except.ok.injEq, Prod.mk.injEq] at h
      rw [← h.1]
      simp
  | succ n ih =>
      intro seq k out k2 h
      simp only [extendSeq] at h
      split at h
      · simp at h
      · split at h
        · simp at h
        · have hlen := ih _ _ _ _ h
          rw [hlen]
          simp
          omega

theorem octaveBands_mem_bounds {r x : Int} (hx : x ∈ octaveBands r) :
    1 ≤ x ∧ x ≤ r := by
  simp only [octaveBands, List.mem_map, List.mem_range] at hx
  obtain ⟨i, hi, rfl⟩ := hx
  have h3 : (r.toNat : Int) = max r 0 := Int.toNat_eq_max r
  omega

theorem octaveBands_mem_of_le {r x : Int} (h1 : 1 ≤ x) (h2 : x ≤ r) :
    x ∈ octaveBands r := by
  simp only [octaveBands, List.mem_map, List.mem_range]
  refine ⟨(x - 1).toNat, by omega, by omega⟩

theorem octaveBands_filter_ne {r : Int} (hr : 2 ≤ r) (v : Int) :
    (octaveBands r).filter (fun o => o != v) ≠ [] := by
  have h1 : (1 : Int) ∈ octaveBands r := octaveBands_mem_of_le (by omega) (by omega)
  have h2 : (2 : Int) ∈ octaveBands r := octaveBands_mem_of_le (by omega) (by omega)
  intro hfil
  have hall : ∀ x ∈ octaveBands r, x = v := by
    intro x hx
    by_contra hne
    have hmem : x ∈ (octaveBands r).filter (fun o => o != v) := by
      rw [List.mem_filter]
      exact ⟨hx, by simpa using hne⟩
    rw [hfil] at hmem
    simp at hmem
  have e1 := hall 1 h1
  have e2 := hall 2 h2
  omega

theorem extendOctaves_ok (r : Int) (g : Nat → Nat) (hr : 2 ≤ r) :
    ∀ (fuel : Nat) (oct : List Int) (k : Nat), oct ≠ [] →
      ∃ out k2, extendOctaves r g fuel oct k = Except.ok (out, k2) ∧
        out.length = oct.length + fuel := by
  intro fuel
  induction fuel with
  | zero => intro oct k _; exact ⟨oct, k, rfl, by simp [extendOctaves]⟩
  | succ n ih =>
      intro oct k hne
      obtain ⟨last, hlast⟩ := list_getLast?_of_ne_nil hne
      by_cases hone : last = 1
      · subst hone
        by_cases hstay : g k % 4 < 3
        · obtain ⟨out, k2, hout, hlen⟩ := ih (oct ++ [1]) (k + 1) (by simp)
          refine ⟨out, k2, ?_, by rw [hlen]; simp; omega⟩
          simp only [extendOctaves, hlast, randFloatLt75, if_true]
          rw [if_pos (decide_eq_true hstay)]
          exact hout
        · obtain ⟨x, hx, -⟩ :=
            randChoice_of_ne_nil g (k + 1) (octaveBands_filter_ne hr 1)
          obtain ⟨out, k2, hout, hlen⟩ := ih (oct ++ [x]) (k + 1 + 1) (by simp)
          refine ⟨out, k2, ?_, by rw [hlen]; simp; omega⟩
          simp only [extendOctaves, hlast, randFloatLt75, if_true]
          rw [if_neg (by simpa using hstay), hx]
          exact hout
      · obtain ⟨x, hx, -⟩ := randChoice_of_ne_nil g k (octaveBands_filter_ne hr last)
        obtain ⟨out, k2, hout, hlen⟩ := ih (oct ++ [x]) (k + 1) (by simp)
        refine ⟨out, k2, ?_, by rw [hlen]; simp; omega⟩
        simp only [extendOctaves, hlast]
        rw [if_neg hone, hx]
        exact hout

theorem extendOctaves_ok_spec (r : Int) (g : Nat → Nat) (hr : 1 ≤ r) :
    ∀ (fuel : Nat) (oct : List Int) (k : Nat) (out : List Int) (k2 : Nat),
      extendOctaves r g fuel oct k = Except.ok (out, k2) →
      (∀ x ∈ oct, 1 ≤ x ∧ x ≤ r) →
      (∀ x ∈ out, 1 ≤ x ∧ x ≤ r) ∧ out.length = oct.length + fuel := by
  intro fuel
  induction fuel with
  | zero =>
      intro oct k out k2 h hbd
      simp only [extendOctaves, Except.ok.injEq, Prod.mk.injEq] at h
      rw [← h.1]
      exact ⟨hbd, by simp⟩
  | succ n ih =>
      intro oct k out k2 h hbd
      have happ : ∀ (x : Int), 1 ≤ x → x ≤ r →
          ∀ y ∈ oct ++ [x], 1 ≤ y ∧ y ≤ r := by
        intro x hx1 hx2 y hy
        rcases List.mem_append.mp hy with hy | hy
        · exact hbd y hy
        · simp at hy; omega
      simp only [extendOctaves] at h
      split at h
      · simp at h
      · split at h
        · split at h
          · rename_i last hlast hone hstay
            obtain ⟨hb, hl⟩ := ih _ _ _ _ h (happ 1 (by omega) (by omega))
            exact ⟨hb, by rw [hl]; simp; omega⟩
          · split at h
            · simp at h
            · rename_i last hlast hone hstay x k3 hc
              have hxb := octaveBands_mem_bounds (List.mem_filter.mp (randChoice_ok_mem hc)).1
              obtain ⟨hb, hl⟩ := ih _ _ _ _ h (happ x hxb.1 hxb.2)
              exact ⟨hb, by rw [hl]; simp; omega⟩
        · split at h
          · simp at h
          · rename_i last hlast hone x k3 hc
            have hxb := octaveBands_mem_bounds (List.mem_filter.mp (randChoice_ok_mem hc)).1
            obtain ⟨hb, hl⟩ := ih _ _ _ _ h (happ x hxb.1 hxb.2)
            exact ⟨hb, by rw [hl]; simp; omega⟩

theorem matchFrom_ok (pre user : List Int) :
    ∀ (fuel k : Nat), k + fuel ≤ pre.length → k + fuel ≤ user.length →
      ∃ l, matchFrom pre user k fuel = Except.ok l ∧ l.length = fuel := by
  intro fuel
  induction fuel with
  | zero => intro k _ _; exact ⟨[], rfl, rfl⟩
  | succ n ih =>
      intro k h1 h2
      have hk1 : k < pre.length := by omega
      have hk2 : k < user.length := by omega
      obtain ⟨l, hl, hlen⟩ := ih (k + 1) (by omega) (by omega)
      refine ⟨(if pre.get ⟨k, hk1⟩ = user.get ⟨k, hk2⟩ then (1 : Int) else 0) :: l,
        ?_, by simp [hlen]⟩
      simp only [matchFrom, pyIndex, List.get?_eq_get hk1, List.get?_eq_get hk2, hl]

theorem matchFrom_err (pre user : List Int) :
    ∀ (fuel k : Nat), k + fuel ≤ pre.length → user.length < k + fuel →
      k ≤ user.length →
      matchFrom pre user k fuel = Except.error PyErr.indexError := by
  intro fuel
  induction fuel with
  | zero => intro k h1 h2 h3; omega
  | succ n ih =>
      intro k h1 h2 h3
      have hk1 : k < pre.length := by omega
      by_cases hk2 : k < user.length
      · have hrest := ih (k + 1) (by omega) (by omega) (by omega)
        simp only [matchFrom, pyIndex, List.get?_eq_get hk1, List.get?_eq_get hk2, hrest]
      · have hnone : user.get? k = none := List.get?_eq_none.mpr (by omega)
        simp only [matchFrom, pyIndex, List.get?_eq_get hk1, hnone]

theorem getLast?_single (x : Int) : ([x] : List Int).getLast? = some x := rfl

/-! ## Claim theorems -/

/-- Claim C1.  The claim says that with `octave_range = 1` and key `"C"` every
call with `count ≥ 2` returns normally for every injected random source.  The
code instead evaluates `random.choice` on the empty list of alternative octave
bands whenever the biased 0.75 draw does not keep band 1, raising `IndexError`:
here at `count = 2`, syllables `"do re"`, with the constant stream 3 (whose
draw makes `random.random() < 0.75` false). -/
theorem generate_octave_one_index_error :
    generate_test_sequence 2 "do re" 1 "C" (fun _ => 3)
      = Except.error PyErr.indexError := by rfl

/-- Claim C2 (counterexample).  The claim says unequal-length inputs always
fail with a length-mismatch error and the per-note list is never shorter than
the longer input.  With ground truth `[60]` and the longer guess list
`[60, 62]`, `validate_user_input` returns normally with a truncated per-note
list of length 1. -/
theorem validate_longer_guess_truncated :
    ([60] : List Int).length = 1 ∧ ([60, 62] : List Int).length = 2 ∧
    validate_user_input [60] [60, 62] = Except.ok (0, [1]) :=
  ⟨rfl, rfl, by rfl⟩

/-- Claim C2 (amended).  When the guess list is shorter than the ground truth,
`validate_user_input` raises an index error; when the guess list is at least
as long, it returns normally with a per-note list of exactly the ground-truth
length (extra guesses are silently ignored), the overall flag comparing the
full lists. -/
theorem validate_user_input_length_cases (pre user : List Int) :
    (user.length < pre.length →
      validate_user_input pre user = Except.error PyErr.indexError) ∧
    (pre.length ≤ user.length →
      ∃ det, validate_user_input pre user
          = Except.ok (if pre = user then 1 else 0, det) ∧
        det.length = pre.length) := by
  constructor
  · intro hlt
    have he := matchFrom_err pre user pre.length 0 (by omega) (by omega) (by omega)
    simp only [validate_user_input, he]
  · intro hle
    obtain ⟨det, hd, hlen⟩ := matchFrom_ok pre user pre.length 0 (by omega) (by omega)
    exact ⟨det, by simp only [validate_user_input, hd], hlen⟩

/-- Claim C2 (witness): both amended branches at concrete inputs. -/
theorem validate_user_input_length_cases_witness :
    validate_user_input [60, 62] [60] = Except.error PyErr.indexError ∧
    ∃ det, validate_user_input [60] [60, 62]
        = Except.ok (if ([60] : List Int) = [60, 62] then 1 else 0, det) ∧
      det.length = ([60] : List Int).length :=
  ⟨(validate_user_input_length_cases [60, 62] [60]).1 (by decide),
   (validate_user_input_length_cases [60] [60, 62]).2 (by decide)⟩

/-- Claim C3.  The claim says every enharmonic pair of key names maps to the
same pitch class modulo 12.  In the table, `"D#"` maps to 2 while `"Eb"` maps
to 3, which are different pitch classes, so the invariant fails on exactly the
pair the specification cites. -/
theorem key_table_enharmonic_pair_differs :
    dictGet key_to_adjustment "D#" = Except.ok 2 ∧
    dictGet key_to_adjustment "Eb" = Except.ok 3 ∧
    ¬ ((2 : Int) % 12 = (3 : Int) % 12) := ⟨rfl, rfl, by decide⟩

/-- Claim C4.  The claim says an error inside the periodic tick forces the
running flag to false and reports the failure to the observer.  The except
handler of `_game_clock` only builds a printed message and leaves the state,
including `running = true`, completely unchanged: no transition to Idle and no
state snapshot is emitted. -/
theorem game_clock_error_keeps_running :
    game_clock_on_error { user_guesses := [], elapsed_time := 0, running := true } "boom"
      = ({ user_guesses := [], elapsed_time := 0, running := true },
         "An error occurred: boom") := rfl

/-- Claim C5.  When `count > 1` and the allowed syllables map to fewer than
two distinct pitch values, `generate_test_sequence` signals an error for every
injected random source: either the allowed set is empty (the seed draw raises)
or the filtered no-repeat candidate list is empty at the first loop pass
(`random.choice` of an empty list raises).  It neither loops forever — the
embedding runs the loop its exact iteration count — nor returns a sequence. -/
theorem generate_single_pitch_signals_error (number_of_notes : Int)
    (solfege_syllables : String) (octave_range : Int) (key : String)
    (g : Nat → Nat) (selected : List Int)
    (hn : 1 < number_of_notes)
    (hsyll : (splitSyllables solfege_syllables).mapM (fun s => dictGet solfege_to_midi s)
      = Except.ok selected)
    (hfew : selected.dedup.length < 2) :
    ∃ e, generate_test_sequence number_of_notes solfege_syllables octave_range key g
      = Except.error e := by
  obtain ⟨m, hm⟩ : ∃ m, (number_of_notes - 1).toNat = m + 1 :=
    ⟨(number_of_notes - 1).toNat - 1, by omega⟩
  cases hsel : selected with
  | nil =>
      refine ⟨PyErr.indexError, ?_⟩
      rw [hsel] at hsyll
      simp only [generate_test_sequence, generate_test_sequence_core, hsyll, randChoice]
  | cons a l =>
      rw [hsel] at hsyll hfew
      obtain ⟨x, hch, hxm⟩ := randChoice_of_ne_nil g 0 (List.cons_ne_nil a l)
      have hall := all_eq_of_dedup_lt_two hfew
      have hfil : (a :: l).filter (fun note => note != x) = [] := by
        rw [List.filter_eq_nil_iff]
        intro b hb
        simp [hall b hb x hxm]
      have hext : extendSeq (a :: l) g (m + 1) [x] (0 + 1)
          = Except.error PyErr.indexError := by
        simp only [extendSeq, getLast?_single, hfil, randChoice]
      refine ⟨PyErr.indexError, ?_⟩
      simp only [generate_test_sequence, generate_test_sequence_core, hsyll, hch, hm, hext]

/-- Claim C5 (witness): two syllables mapping to the single pitch 60. -/
theorem generate_single_pitch_signals_error_witness :
    ∃ e, generate_test_sequence 2 "do do" 5 "C" (fun _ => 0) = Except.error e :=
  generate_single_pitch_signals_error 2 "do do" 5 "C" (fun _ => 0) [60, 60]
    (by norm_num) (by rfl) (by decide)

/-- Claim C6 (counterexample).  The claim quantifies over every valid input
(which includes `octave_range = 1`) and every random source; at `count = 2`,
syllables `"do re mi"` (three distinct pitches), `octave_range = 1`, key
`"C"`, the constant stream 3 makes the octave walk draw from an empty
candidate list and the call errors instead of returning sequences. -/
theorem generate_valid_input_can_error :
    1 ≤ (2 : Int) ∧
    (splitSyllables "do re mi").mapM (fun s => dictGet solfege_to_midi s)
        = Except.ok [60, 62, 64] ∧
    2 ≤ ([60, 62, 64] : List Int).dedup.length ∧
    1 ≤ (1 : Int) ∧
    dictGet key_to_adjustment "C" = Except.ok 0 ∧
    generate_test_sequence_core 2 "do re mi" 1 "C" (fun _ => 3)
        = Except.error PyErr.indexError :=
  ⟨by norm_num, by rfl, by decide, by norm_num, by rfl, by rfl⟩

/-- Claim C6 (amended).  For every valid input whose octave range is at least
2 — or with `count = 1`, where the octave walk never iterates — and every
injected random source, `generate_test_sequence` returns a ground-truth and a
display sequence of length exactly `count`, and no two adjacent ground-truth
elements are equal. -/
theorem generate_count_length_no_repeat (number_of_notes : Int)
    (solfege_syllables : String) (octave_range : Int) (key : String)
    (g : Nat → Nat) (selected : List Int) (adj : Int)
    (hn : 1 ≤ number_of_notes)
    (hsyll : (splitSyllables solfege_syllables).mapM (fun s => dictGet solfege_to_midi s)
      = Except.ok selected)
    (hdist : 2 ≤ selected.dedup.length)
    (hoct1 : 1 ≤ octave_range)
    (hoct : 2 ≤ octave_range ∨ number_of_notes = 1)
    (hkey : dictGet key_to_adjustment key = Except.ok adj) :
    ∃ disp pre,
      generate_test_sequence_core number_of_notes solfege_syllables octave_range key g
        = Except.ok (disp, pre) ∧
      generate_test_sequence number_of_notes solfege_syllables octave_range key g
        = Except.ok (joinUnderscore disp, pre) ∧
      disp.length = number_of_notes.toNat ∧
      pre.length = number_of_notes.toNat ∧
      List.Chain' (fun a b => a ≠ b) pre := by
  have hne : selected ≠ [] := by
    intro h
    rw [h] at hdist
    simp at hdist
  obtain ⟨x, hch, hxm⟩ := randChoice_of_ne_nil g 0 hne
  obtain ⟨pre, k2, hext, hplen, hchain⟩ :=
    extendSeq_ok selected g (fun v => filter_ne_of_two_dedup hdist v)
      (number_of_notes - 1).toNat [x] (0 + 1) (List.cons_ne_nil x [])
  have hpre_chain := hchain (List.chain'_singleton x)
  have hri : randInt g k2 1 octave_range
      = Except.ok (1 + (g k2 : Int) % (octave_range - 1 + 1), k2 + 1) := by
    simp only [randInt, if_pos hoct1]
  obtain ⟨bands, k4, hocts, hblen⟩ :
      ∃ bands k4, extendOctaves octave_range g (number_of_notes - 1).toNat
          [1 + (g k2 : Int) % (octave_range - 1 + 1)] (k2 + 1) = Except.ok (bands, k4) ∧
        bands.length = 1 + (number_of_notes - 1).toNat := by
    rcases hoct with hoct | hoct
    · obtain ⟨bands, k4, h1, h2⟩ := extendOctaves_ok octave_range g hoct
        (number_of_notes - 1).toNat [1 + (g k2 : Int) % (octave_range - 1 + 1)] (k2 + 1)
        (List.cons_ne_nil _ [])
      exact ⟨bands, k4, h1, by simpa using h2⟩
    · have hm : (number_of_notes - 1).toNat = 0 := by omega
      rw [hm]
      exact ⟨_, _, rfl, by simp⟩
  have hplen2 : pre.length = 1 + (number_of_notes - 1).toNat := by
    rw [hplen]; simp
  have hcore : generate_test_sequence_core number_of_notes solfege_syllables octave_range key g
      = Except.ok (((pre.zip bands).map (fun p => p.1 + (p.2 - 1) * 12)).map
          (fun note => note + adj), pre) := by
    simp only [generate_test_sequence_core, hsyll, hch, hext, hri, hocts, hkey]
  refine ⟨_, pre, hcore, by simp only [generate_test_sequence, hcore], ?_, ?_, hpre_chain⟩
  · simp only [List.length_map, List.length_zip, hplen2, hblen]
    omega
  · omega

/-- Claim C6 (witness): three notes over two syllables in two octave bands. -/
theorem generate_count_length_no_repeat_witness :
    ∃ disp pre,
      generate_test_sequence_core 3 "do re" 2 "C" (fun _ => 0) = Except.ok (disp, pre) ∧
      generate_test_sequence 3 "do re" 2 "C" (fun _ => 0)
        = Except.ok (joinUnderscore disp, pre) ∧
      disp.length = (3 : Int).toNat ∧
      pre.length = (3 : Int).toNat ∧
      List.Chain' (fun a b => a ≠ b) pre :=
  generate_count_length_no_repeat 3 "do re" 2 "C" (fun _ => 0) [60, 62] 0
    (by norm_num) (by rfl) (by decide) (by norm_num) (Or.inl (by norm_num)) (by rfl)

/-- Claim C7.  Whenever `generate_test_sequence` returns, there is a key
offset `adj` (the table offset of the given key) and a per-note octave band
list, each band in `[1, octave_range]`, such that every display element is
`ground_truth[i] + (band[i] - 1) * 12 + adj`. -/
theorem generate_display_octave_key_formula (number_of_notes : Int)
    (solfege_syllables : String) (octave_range : Int) (key : String)
    (g : Nat → Nat) (disp pre : List Int)
    (h : generate_test_sequence_core number_of_notes solfege_syllables octave_range key g
      = Except.ok (disp, pre)) :
    ∃ adj bands, dictGet key_to_adjustment key = Except.ok adj ∧
      bands.length = pre.length ∧
      (∀ b ∈ bands, 1 ≤ b ∧ b ≤ octave_range) ∧
      disp = (pre.zip bands).map (fun p => p.1 + (p.2 - 1) * 12 + adj) := by
  simp only [generate_test_sequence_core] at h
  split at h
  · simp at h
  · rename_i selected hsyll
    split at h
    · simp at h
    · rename_i first k1 hch
      split at h
      · simp at h
      · rename_i midi_sequence k2 hext
        split at h
        · simp at h
        · rename_i oct1 k3 hri
          split at h
          · simp at h
          · rename_i bands k4 hocts
            split at h
            · simp at h
            · rename_i adj hkey
              simp only [Except.ok.injEq, Prod.mk.injEq] at h
              obtain ⟨hdisp, hpre⟩ := h
              subst hpre
              obtain ⟨hr1, ho1, ho2⟩ := randInt_ok_bounds hri
              obtain ⟨hbd, hblen⟩ := extendOctaves_ok_spec octave_range g hr1 _ _ _ _ _
                hocts (by
                  intro y hy
                  simp only [List.mem_singleton] at hy
                  subst hy
                  exact ⟨ho1, ho2⟩)
              have hmlen := extendSeq_ok_length selected g _ _ _ _ _ hext
              refine ⟨adj, bands, hkey, ?_, hbd, ?_⟩
              · simp only [hblen, hmlen]
                simp
              · rw [← hdisp, List.map_map]
                rfl

/-- Claim C7 (witness): a successful concrete run with both bands equal to 1. -/
theorem generate_display_octave_key_formula_witness :
    ∃ adj bands, dictGet key_to_adjustment "C" = Except.ok adj ∧
      bands.length = ([60, 62] : List Int).length ∧
      (∀ b ∈ bands, 1 ≤ b ∧ b ≤ 2) ∧
      ([60, 62] : List Int) = (([60, 62] : List Int).zip bands).map
        (fun p => p.1 + (p.2 - 1) * 12 + adj) :=
  generate_display_octave_key_formula 2 "do re" 2 "C" (fun _ => 0) [60, 62] [60, 62]
    (by rfl)

/-- Claim C8.  For every key present in the table with offset `adj`,
`generate_reference_cadence` deterministically returns the tonic triad
`(r, r + 4, r + 7)` and the dominant triad `(r - 5, r - 1, r + 2)` where
`r = 60 + adj` is the base do pitch plus the key offset. -/
theorem generate_reference_cadence_spec (key : String) (adj : Int)
    (hkey : dictGet key_to_adjustment key = Except.ok adj) :
    generate_reference_cadence key = Except.ok
      { dominant := (60 + adj - 5, 60 + adj - 1, 60 + adj + 2)
        tonic := (60 + adj, 60 + adj + 4, 60 + adj + 7) } := by
  simp only [generate_reference_cadence,
    show dictGet solfege_to_midi "do" = Except.ok 60 from rfl, hkey]

/-- Claim C8 (witness): the key D example, tonic (62, 66, 69) and dominant
(57, 61, 64). -/
theorem generate_reference_cadence_spec_witness :
    dictGet key_to_adjustment "D" = Except.ok 2 ∧
    generate_reference_cadence "D"
      = Except.ok { dominant := (57, 61, 64), tonic := (62, 66, 69) } :=
  ⟨rfl, by rw [generate_reference_cadence_spec "D" 2 (by rfl)]; rfl⟩

/-- Claim C9.  Calling `remove_user_guess` on a session with an empty guess
buffer returns normally, leaves the whole state (guess buffer, elapsed time
and running flag) unchanged, and still emits the state snapshot to the
observer. -/
theorem remove_user_guess_empty_noop (s : GameState) (h : s.user_guesses = []) :
    remove_user_guess s = (s, notify_gui s) := by
  simp [remove_user_guess, h]

/-- Claim C9 (witness): the empty-buffer state with zero clock. -/
theorem remove_user_guess_empty_noop_witness :
    remove_user_guess { user_guesses := [], elapsed_time := 0, running := false }
      = ({ user_guesses := [], elapsed_time := 0, running := false }, (0, [])) := by
  rw [remove_user_guess_empty_noop
    { user_guesses := [], elapsed_time := 0, running := false } rfl]
  rfl

/-- Claim C10.  For every `count ≤ 1` (including 0 and negative values), any
valid non-empty syllable set, `octave_range ≥ 1` and valid key,
`generate_test_sequence` returns normally with ground-truth and display
sequences of length exactly 1: both loops run `max (count - 1) 0 = 0` times,
so the no-repeat step is never exercised and the returned length is
`max (count, 1)` rather than `count`. -/
theorem generate_count_le_one_returns_one (number_of_notes : Int)
    (solfege_syllables : String) (octave_range : Int) (key : String)
    (g : Nat → Nat) (selected : List Int) (adj : Int)
    (hn : number_of_notes ≤ 1)
    (hsyll : (splitSyllables solfege_syllables).mapM (fun s => dictGet solfege_to_midi s)
      = Except.ok selected)
    (hne : selected ≠ [])
    (hoct : 1 ≤ octave_range)
    (hkey : dictGet key_to_adjustment key = Except.ok adj) :
    ∃ disp pre,
      generate_test_sequence_core number_of_notes solfege_syllables octave_range key g
        = Except.ok (disp, pre) ∧
      generate_test_sequence number_of_notes solfege_syllables octave_range key g
        = Except.ok (joinUnderscore disp, pre) ∧
      disp.length = 1 ∧ pre.length = 1 := by
  have hm : (number_of_notes - 1).toNat = 0 := by omega
  obtain ⟨x, hch, -⟩ := randChoice_of_ne_nil g 0 hne
  have hext : extendSeq selected g (number_of_notes - 1).toNat [x] (0 + 1)
      = Except.ok ([x], 0 + 1) := by rw [hm]; rfl
  have hri : randInt g (0 + 1) 1 octave_range
      = Except.ok (1 + (g (0 + 1) : Int) % (octave_range - 1 + 1), 0 + 1 + 1) := by
    simp only [randInt, if_pos hoct]
  have hocts : extendOctaves octave_range g (number_of_notes - 1).toNat
      [1 + (g (0 + 1) : Int) % (octave_range - 1 + 1)] (0 + 1 + 1)
      = Except.ok ([1 + (g (0 + 1) : Int) % (octave_range - 1 + 1)], 0 + 1 + 1) := by
    rw [hm]; rfl
  have hcore : generate_test_sequence_core number_of_notes solfege_syllables octave_range key g
      = Except.ok ([x + (1 + (g (0 + 1) : Int) % (octave_range - 1 + 1) - 1) * 12 + adj],
        [x]) := by
    simp only [generate_test_sequence_core, hsyll, hch, hext, hri, hocts, hkey]
    rfl
  exact ⟨_, _, hcore, by simp only [generate_test_sequence, hcore], rfl, rfl⟩

/-- Claim C10 (witness): `count = 0` still produces one note. -/
theorem generate_count_le_one_returns_one_witness :
    ∃ disp pre,
      generate_test_sequence_core 0 "do" 1 "C" (fun _ => 0) = Except.ok (disp, pre) ∧
      generate_test_sequence 0 "do" 1 "C" (fun _ => 0)
        = Except.ok (joinUnderscore disp, pre) ∧
      disp.length = 1 ∧ pre.length = 1 :=
  generate_count_le_one_returns_one 0 "do" 1 "C" (fun _ => 0) [60] 0
    (by norm_num) (by rfl) (by decide) (by norm_num) (by rfl)
